import Mathlib

/-!
Shallow embedding of `BfvParameters::new` from `src/src/lib.rs` of the `bfv`
crate. The crate declares `mod nb_theory;` and `mod poly;`, but those files are
not under `src/`; the prime oracle (`generate_prime`) and the ring types
(`Poly`, `PolyContext`, `Representation`) are therefore modelled from the
specification's external-interface contract (spec §6), while everything in
`lib.rs` itself is translated directly.

`BfvParameters::new` in the source returns the bare struct — there is no error
type anywhere in the code — so every failure mode is a Rust panic
(`assert!(false)`, `.unwrap()` on `None`, bignum subtraction underflow,
division by zero). The embedding makes those panic sites explicit as the
`Panic` inductive, and models the unbounded duplicate-avoidance `loop` with
explicit fuel (`FindOutcome.outOfFuel` marks fuel exhaustion; a conforming
oracle never reaches it, which is proved below).
-/

namespace Bfv

/-- Modelled from the spec: the tagged representation state of a ring element
(value domain vs transform domain), from `poly.rs` which is absent from
`src/`; spec §6 and §9 require an explicit tag with a pure conversion. -/
inductive Representation where
  | Coefficient
  | Evaluation
  deriving Repr, DecidableEq

/-- Modelled from the spec: `PolyContext` from the absent `poly.rs`; spec §6's
`RingContext` holds an ordered sequence of 64-bit moduli and a degree. -/
structure PolyContext where
  moduli : List Nat
  degree : Nat
  deriving Repr, DecidableEq

/-- Modelled from the spec: `RingContext.modulus()` is the product of the
context's moduli (spec §6). -/
def PolyContext.modulus (c : PolyContext) : Nat := c.moduli.prod

/-- Modelled from the spec: a constant ring element from the absent `poly.rs`,
reduced to what the claims need — the constant's integer value modulo the
context modulus, plus the representation tag. -/
structure Poly where
  value : Nat
  rep : Representation
  deriving Repr, DecidableEq

/-- Modelled from the spec: `RingElement.fromConstant` (spec §6) — materialize
an arbitrary-precision integer as a constant ring element, reducing it modulo
the context modulus, in the given representation. -/
def Poly.try_convert_from_biguint (v : Nat) (ctx : PolyContext)
    (r : Representation) : Poly :=
  { value := v % ctx.modulus, rep := r }

/-- Modelled from the spec: `RingElement.convertTo` (spec §6) — pure,
value-preserving change of the representation tag. -/
def Poly.change_representation (p : Poly) (r : Representation) : Poly :=
  { p with rep := r }

/-- The external bignum crate's `ModInverse::mod_inverse(a, n)`: the unique
`x < n` with `a * x ≡ 1 (mod n)` when it exists (i.e. when `gcd a n = 1`),
otherwise `none` (spec §1 assumes arbitrary-precision modular inversion as a
primitive capability; realized here by exhaustive search so that it is kernel
computable). -/
def modInverse (a n : Nat) : Option Nat :=
  (List.range n).find? fun x => a * x % n == 1 % n

/-- Executable primality test by trial division, used by the spec-modelled
prime oracle below. -/
def isPrime (n : Nat) : Bool :=
  2 ≤ n && (List.range (n - 2)).all fun i => n % (i + 2) != 0

/-- Modelled from the spec: `generate_prime` from the absent `nb_theory.rs`.
Spec §6: returns a prime `p` with `2^(size-1) ≤ p < min(2^size, ub)` and
`p ≡ 1 (mod nttFactor)`, or `none` when no such prime exists; this model
returns the largest one, searching downward. -/
def generate_prime (size nttFactor ub : Nat) : Option Nat :=
  let hi := min (2 ^ size) ub
  let lo := 2 ^ (size - 1)
  ((List.range (hi - lo)).map fun i => hi - 1 - i).find? fun p =>
    isPrime p && p % nttFactor == 1

/-- Outcome of one run of the per-size duplicate-avoidance `loop` of
`BfvParameters::new` (lib.rs lines 47–61): `found p` is the `break` after
pushing a fresh prime, `assertFail` is the `assert!(false)` panic when the
oracle returns `None`, and `outOfFuel` marks that the given fuel ran out
(the Rust loop is unbounded; conforming oracles never reach this). -/
inductive FindOutcome where
  | found (p : Nat)
  | assertFail
  | outOfFuel
  deriving Repr, DecidableEq

/-- The duplicate-avoidance `loop` (lib.rs lines 47–61): query the oracle at
the current upper bound; a fresh prime is accepted, a duplicate tightens the
upper bound to the duplicate's value and retries, `None` panics. -/
def findPrime (oracle : Nat → Nat → Nat → Option Nat) (size nttF : Nat)
    (accepted : List Nat) : Nat → Nat → FindOutcome
  | 0, _ => .outOfFuel
  | fuel + 1, ub =>
    match oracle size nttF ub with
    | some p =>
      if p ∈ accepted then findPrime oracle size nttF accepted fuel p
      else .found p
    | none => .assertFail

/-- Result of the whole prime-generation phase (lib.rs lines 44–62). -/
inductive GenResult where
  | ok (moduli : List Nat)
  | assertFail
  | outOfFuel
  deriving Repr, DecidableEq

/-- The prime-generation phase: for each requested bit size in order, start
from `upper_bound = 1 << size` and run the duplicate-avoidance loop; the fuel
`2^size + 1` is justified by the termination theorem for conforming oracles. -/
def genModuli (oracle : Nat → Nat → Nat → Option Nat) (nttF : Nat) :
    List Nat → List Nat → GenResult
  | accepted, [] => .ok accepted
  | accepted, size :: rest =>
    match findPrime oracle size nttF accepted (2 ^ size + 1) (2 ^ size) with
    | .found p => genModuli oracle nttF (accepted ++ [p]) rest
    | .assertFail => .assertFail
    | .outOfFuel => .outOfFuel

/-- The panic sites of `BfvParameters::new`. The function's return type is the
bare `BfvParameters` struct — no `Result`, and no error values named
`InsufficientPrimes`, `NonInvertible` or `InvalidConfiguration` exist anywhere
in the code — so each failure aborts via a Rust panic. -/
inductive Panic where
  | assertFalse
  | subUnderflow
  | divByZero
  | unwrapNoneEncInverse
  | unwrapNoneDecInverse
  | unwrapNoneMax
  deriving Repr, DecidableEq

/-- Encryption-side precomputation for one level (lib.rs lines 78–101):
`ql_modt = Q mod t` and the transform-domain constant `(-t)^{-1} mod Q`.
`t = 0` makes `Q % t` panic; `t > Q` makes the `BigUint` subtraction
`&q_dig - plaintext_modulus` underflow-panic; a missing inverse makes the
`.unwrap()` panic. -/
def encTable (t : Nat) (ctx : PolyContext) : Except Panic (Nat × Poly) :=
  let q := ctx.modulus
  if t = 0 then .error .divByZero
  else
    let qlmodt := q % t
    if q < t then .error .subUnderflow
    else
      match modInverse (q - t) q with
      | none => .error .unwrapNoneEncInverse
      | some inv =>
        let p := Poly.try_convert_from_biguint inv ctx Representation.Coefficient
        .ok (qlmodt, p.change_representation Representation.Evaluation)

/-- The encryption loop over all level contexts, first panic wins. -/
def encTables (t : Nat) : List PolyContext → Except Panic (List (Nat × Poly))
  | [] => .ok []
  | c :: cs =>
    match encTable t c with
    | .error e => .error e
    | .ok x =>
      match encTables t cs with
      | .error e => .error e
      | .ok xs => .ok (x :: xs)

/-- Decryption-side precomputation for one modulus `qi` of one level
(lib.rs lines 119–151): the rational/fractional pairs, with the fractional
parts modelled as exact rationals (the code stores `f64` approximations of
these exact values). -/
def decEntry (t b ql qi : Nat) : Except Panic (Nat × Nat × ℚ × ℚ) :=
  if qi = 0 then .error .divByZero
  else
    match modInverse (ql / qi) qi with
    | none => .error .unwrapNoneDecInverse
    | some qihatInv =>
      let rational := ((qihatInv * t) / qi) % t
      let brational := ((((qihatInv * 2 ^ b) % qi) * t) / qi) % t
      let fractional : ℚ := mkRat ((qihatInv * t) % qi : Nat) qi
      let bfractional : ℚ := mkRat ((((qihatInv * 2 ^ b) % qi) * t) % qi : Nat) qi
      .ok (rational, brational, fractional, bfractional)

/-- The decryption inner loop over one level's moduli, first panic wins. -/
def decRow (t b ql : Nat) : List Nat → Except Panic (List (Nat × Nat × ℚ × ℚ))
  | [] => .ok []
  | qi :: qs =>
    match decEntry t b ql qi with
    | .error e => .error e
    | .ok x =>
      match decRow t b ql qs with
      | .error e => .error e
      | .ok xs => .ok (x :: xs)

/-- The decryption outer loop over all level contexts. -/
def decTables (t b : Nat) :
    List PolyContext → Except Panic (List (List (Nat × Nat × ℚ × ℚ)))
  | [] => .ok []
  | c :: cs =>
    match decRow t b c.modulus c.moduli with
    | .error e => .error e
    | .ok r =>
      match decTables t b cs with
      | .error e => .error e
      | .ok rs => .ok (r :: rs)

/-- The `BfvParameters` struct (lib.rs lines 17–34). -/
structure BfvParameters where
  ciphertext_moduli : List Nat
  ciphertext_moduli_sizes : List Nat
  ciphertext_poly_contexts : List PolyContext
  plaintext_modulus : Nat
  ql_modt : List Nat
  neg_t_inv_modql : List Poly
  t_qlhat_inv_modql_divql_modt : List (List Nat)
  t_bqlhat_inv_modql_divql_modt : List (List Nat)
  t_qlhat_inv_modql_divql_frac : List (List ℚ)
  t_bqlhat_inv_modql_divql_frac : List (List ℚ)
  max_bit_size_by2 : Nat
  deriving Repr, DecidableEq

/-- Level contexts (lib.rs lines 65–73): level `i` is the `PolyContext` over
`ciphertext_moduli[..moduli_count - i]`. -/
def buildContexts (moduli : List Nat) (degree : Nat) : List PolyContext :=
  (List.range moduli.length).map fun i =>
    { moduli := moduli.take (moduli.length - i), degree := degree }

/-- Result of `BfvParameters::new`: success, a panic (process-fatal in Rust),
or the fuel marker for the unbounded loop. -/
inductive BuildResult where
  | ok (p : BfvParameters)
  | panic (s : Panic)
  | outOfFuel
  deriving Repr, DecidableEq

/-- Everything `BfvParameters::new` does after the prime-generation phase:
contexts, the encryption loop, `b = max(sizes)/2` (the `.max().unwrap()` at
line 105 panics on an empty size list), the decryption loops, and final
struct assembly (lib.rs lines 64–172). -/
def buildFrom (moduli sizes : List Nat) (t degree : Nat) :
    Except Panic BfvParameters :=
  let contexts := buildContexts moduli degree
  match encTables t contexts with
  | .error e => .error e
  | .ok enc =>
    match sizes.max? with
    | none => .error .unwrapNoneMax
    | some maxSize =>
      let b := maxSize / 2
      match decTables t b contexts with
      | .error e => .error e
      | .ok dec =>
        .ok {
          ciphertext_moduli := moduli,
          ciphertext_moduli_sizes := sizes,
          ciphertext_poly_contexts := contexts,
          plaintext_modulus := t,
          ql_modt := enc.map Prod.fst,
          neg_t_inv_modql := enc.map Prod.snd,
          t_qlhat_inv_modql_divql_modt := dec.map fun r => r.map fun x => x.1,
          t_bqlhat_inv_modql_divql_modt :=
            dec.map fun r => r.map fun x => x.2.1,
          t_qlhat_inv_modql_divql_frac :=
            dec.map fun r => r.map fun x => x.2.2.1,
          t_bqlhat_inv_modql_divql_frac :=
            dec.map fun r => r.map fun x => x.2.2.2,
          max_bit_size_by2 := b }

/-- `BfvParameters::new` (lib.rs lines 38–172), parametrized by the prime
oracle (the absent `generate_prime`); the spec-modelled `generate_prime`
above is the concrete instance. -/
def BfvParameters.new (oracle : Nat → Nat → Nat → Option Nat)
    (ciphertext_moduli_sizes : List Nat)
    (plaintext_modulus degree : Nat) : BuildResult :=
  match genModuli oracle (2 * degree) [] ciphertext_moduli_sizes with
  | .outOfFuel => .outOfFuel
  | .assertFail => .panic .assertFalse
  | .ok moduli =>
    match buildFrom moduli ciphertext_moduli_sizes plaintext_modulus degree with
    | .error e => .panic e
    | .ok p => .ok p

/-- `true` exactly on successful construction. -/
def BuildResult.isOk : BuildResult → Bool
  | .ok _ => true
  | _ => false

/-- The part of the spec §6 oracle contract the termination argument needs:
any prime the oracle returns lies strictly below the exclusive upper bound. -/
def OracleBelowBound (oracle : Nat → Nat → Nat → Option Nat) : Prop :=
  ∀ s f ub p, oracle s f ub = some p → p < ub

theorem modInverse_mul_mod {a n x : Nat} (h : modInverse a n = some x) :
    a * x % n = 1 % n ∧ x < n := by
  unfold modInverse at h
  have hpred := List.find?_some h
  have hmem := List.mem_of_find?_eq_some h
  refine ⟨by simpa using hpred, by simpa using List.mem_range.mp hmem⟩

theorem gcd_eq_one_of_mul_mod {a n x : Nat} (hn : 2 ≤ n)
    (h : a * x % n = 1 % n) : Nat.gcd a n = 1 := by
  have h1 : 1 % n = 1 := Nat.mod_eq_of_lt (by omega)
  rw [h1] at h
  have hdiv : n * (a * x / n) + a * x % n = a * x := Nat.div_add_mod (a * x) n
  rw [h] at hdiv
  have hda : Nat.gcd a n ∣ a := Nat.gcd_dvd_left _ _
  have hdn : Nat.gcd a n ∣ n := Nat.gcd_dvd_right _ _
  have hdq : Nat.gcd a n ∣ n * (a * x / n) := hdn.mul_right _
  have hdax : Nat.gcd a n ∣ a * x := hda.mul_right _
  rw [← hdiv] at hdax
  exact Nat.dvd_one.mp ((Nat.dvd_add_right hdq).mp hdax)

theorem modInverse_eq_none {a n : Nat} (hn : 2 ≤ n) (h : Nat.gcd a n ≠ 1) :
    modInverse a n = none := by
  cases hm : modInverse a n with
  | none => rfl
  | some x => exact absurd (gcd_eq_one_of_mul_mod hn (modInverse_mul_mod hm).1) h

theorem findPrime_found_not_mem (oracle : Nat → Nat → Nat → Option Nat)
    (size nttF : Nat) (accepted : List Nat) :
    ∀ fuel ub p, findPrime oracle size nttF accepted fuel ub = .found p →
      p ∉ accepted := by
  intro fuel
  induction fuel with
  | zero => intro ub p h; simp [findPrime] at h
  | succ n ih =>
    intro ub p h
    rw [findPrime] at h
    split at h
    · split at h
      · exact ih _ _ h
      · cases h
        assumption
    · cases h

theorem findPrime_terminates (oracle : Nat → Nat → Nat → Option Nat)
    (hor : OracleBelowBound oracle) (size nttF : Nat) (accepted : List Nat) :
    ∀ ub fuel, ub < fuel →
      findPrime oracle size nttF accepted fuel ub ≠ .outOfFuel := by
  intro ub
  induction ub using Nat.strong_induction_on with
  | _ ub ih =>
    intro fuel hlt
    match fuel, hlt with
    | f + 1, _ =>
      rw [findPrime]
      split
      · rename_i p horacle
        have hpub : p < ub := hor _ _ _ _ horacle
        split
        · exact ih p hpub f (by omega)
        · simp
      · simp

theorem genModuli_ok_nodup (oracle : Nat → Nat → Nat → Option Nat)
    (nttF : Nat) :
    ∀ sizes accepted moduli, accepted.Nodup →
      genModuli oracle nttF accepted sizes = .ok moduli → moduli.Nodup := by
  intro sizes
  induction sizes with
  | nil =>
    intro acc m hnd h
    rw [genModuli] at h
    cases h
    exact hnd
  | cons s rest ih =>
    intro acc m hnd h
    rw [genModuli] at h
    cases hfp : findPrime oracle s nttF acc (2 ^ s + 1) (2 ^ s) with
    | found p =>
      rw [hfp] at h
      have hnotmem := findPrime_found_not_mem oracle s nttF acc _ _ _ hfp
      refine ih (acc ++ [p]) m ?_ h
      simp [List.nodup_append, hnd, hnotmem]
    | assertFail => rw [hfp] at h; simp at h
    | outOfFuel => rw [hfp] at h; simp at h

theorem genModuli_terminates (oracle : Nat → Nat → Nat → Option Nat)
    (hor : OracleBelowBound oracle) (nttF : Nat) :
    ∀ sizes accepted, genModuli oracle nttF accepted sizes ≠ .outOfFuel := by
  intro sizes
  induction sizes with
  | nil => intro acc; rw [genModuli]; simp
  | cons s rest ih =>
    intro acc
    rw [genModuli]
    cases hfp : findPrime oracle s nttF acc (2 ^ s + 1) (2 ^ s) with
    | found p => exact ih (acc ++ [p])
    | assertFail => simp
    | outOfFuel =>
      exact absurd hfp (findPrime_terminates oracle hor s nttF acc _ _ (by omega))

theorem mkRat_natCast_div (a b : Nat) :
    mkRat (a : Int) b = (a : ℚ) / ((b : Nat) : ℚ) := by
  rw [Rat.mkRat_eq_div, Int.cast_natCast]

theorem encTable_ok {t : Nat} {c : PolyContext} {m : Nat} {q : Poly}
    (h : encTable t c = .ok (m, q)) :
    t ≠ 0 ∧ t ≤ c.modulus ∧ m = c.modulus % t ∧
    ∃ inv, modInverse (c.modulus - t) c.modulus = some inv ∧
      q = { value := inv % c.modulus, rep := Representation.Evaluation } := by
  simp only [encTable, Poly.try_convert_from_biguint,
    Poly.change_representation] at h
  split at h
  · cases h
  · rename_i ht
    split at h
    · cases h
    · rename_i hqt
      split at h
      · cases h
      · rename_i inv hinv
        simp only [Except.ok.injEq, Prod.mk.injEq] at h
        exact ⟨ht, by omega, h.1.symm, inv, hinv, h.2.symm⟩

theorem encTables_ok {t : Nat} :
    ∀ (cs : List PolyContext) (res : List (Nat × Poly)),
      encTables t cs = .ok res →
      res.length = cs.length ∧
      ∀ (i : Nat) (c : PolyContext), cs[i]? = some c →
        ∃ x, encTable t c = .ok x ∧ res[i]? = some x := by
  intro cs
  induction cs with
  | nil =>
    intro res h
    rw [encTables] at h
    cases h
    exact ⟨rfl, by intro i c hc; simp at hc⟩
  | cons c0 cs ih =>
    intro res h
    rw [encTables] at h
    split at h
    · cases h
    · rename_i x hx
      split at h
      · cases h
      · rename_i xs hxs
        cases h
        obtain ⟨hlen, hget⟩ := ih xs hxs
        refine ⟨by simp [hlen], ?_⟩
        intro i c hc
        cases i with
        | zero =>
          simp only [List.getElem?_cons_zero, Option.some.injEq] at hc
          exact ⟨x, hc ▸ hx, by simp⟩
        | succ j =>
          simp only [List.getElem?_cons_succ] at hc
          obtain ⟨y, hy, hres⟩ := hget j c hc
          exact ⟨y, hy, by simpa using hres⟩

theorem decEntry_ok {t b ql qi r br : Nat} {f bf : ℚ}
    (h : decEntry t b ql qi = .ok (r, br, f, bf)) :
    qi ≠ 0 ∧ ∃ v, modInverse (ql / qi) qi = some v ∧
      r = (v * t) / qi % t ∧
      br = ((v * 2 ^ b % qi) * t) / qi % t ∧
      f = mkRat (((v * t) % qi : Nat)) qi ∧
      bf = mkRat ((((v * 2 ^ b % qi) * t) % qi : Nat)) qi := by
  simp only [decEntry] at h
  split at h
  · cases h
  · rename_i hqi
    split at h
    · cases h
    · rename_i v hv
      simp only [Except.ok.injEq, Prod.mk.injEq] at h
      obtain ⟨h1, h2, h3, h4⟩ := h
      exact ⟨hqi, v, hv, h1.symm, h2.symm, h3.symm, h4.symm⟩

theorem decRow_ok {t b ql : Nat} :
    ∀ (qs : List Nat) (res : List (Nat × Nat × ℚ × ℚ)),
      decRow t b ql qs = .ok res →
      res.length = qs.length ∧
      ∀ (j qi : Nat), qs[j]? = some qi →
        ∃ x, decEntry t b ql qi = .ok x ∧ res[j]? = some x := by
  intro qs
  induction qs with
  | nil =>
    intro res h
    rw [decRow] at h
    cases h
    exact ⟨rfl, by intro j qi hqi; simp at hqi⟩
  | cons q0 qs ih =>
    intro res h
    rw [decRow] at h
    split at h
    · cases h
    · rename_i x hx
      split at h
      · cases h
      · rename_i xs hxs
        cases h
        obtain ⟨hlen, hget⟩ := ih xs hxs
        refine ⟨by simp [hlen], ?_⟩
        intro j qi hqi
        cases j with
        | zero =>
          simp only [List.getElem?_cons_zero, Option.some.injEq] at hqi
          exact ⟨x, hqi ▸ hx, by simp⟩
        | succ j =>
          simp only [List.getElem?_cons_succ] at hqi
          obtain ⟨y, hy, hres⟩ := hget j qi hqi
          exact ⟨y, hy, by simpa using hres⟩

theorem decTables_ok {t b : Nat} :
    ∀ (cs : List PolyContext) (res : List (List (Nat × Nat × ℚ × ℚ))),
      decTables t b cs = .ok res →
      res.length = cs.length ∧
      ∀ (i : Nat) (c : PolyContext), cs[i]? = some c →
        ∃ row, decRow t b c.modulus c.moduli = .ok row ∧ res[i]? = some row := by
  intro cs
  induction cs with
  | nil =>
    intro res h
    rw [decTables] at h
    cases h
    exact ⟨rfl, by intro i c hc; simp at hc⟩
  | cons c0 cs ih =>
    intro res h
    rw [decTables] at h
    split at h
    · cases h
    · rename_i r hr
      split at h
      · cases h
      · rename_i rs hrs
        cases h
        obtain ⟨hlen, hget⟩ := ih rs hrs
        refine ⟨by simp [hlen], ?_⟩
        intro i c hc
        cases i with
        | zero =>
          simp only [List.getElem?_cons_zero, Option.some.injEq] at hc
          exact ⟨r, hc ▸ hr, by simp⟩
        | succ j =>
          simp only [List.getElem?_cons_succ] at hc
          obtain ⟨row, hrow, hres⟩ := hget j c hc
          exact ⟨row, hrow, by simpa using hres⟩

theorem buildContexts_length (moduli : List Nat) (degree : Nat) :
    (buildContexts moduli degree).length = moduli.length := by
  simp [buildContexts]

theorem buildContexts_getElem? (moduli : List Nat) (degree : Nat) (i : Nat)
    (hi : i < moduli.length) :
    (buildContexts moduli degree)[i]? =
      some { moduli := moduli.take (moduli.length - i), degree := degree } := by
  simp [buildContexts, hi]

theorem new_ok {oracle : Nat → Nat → Nat → Option Nat} {sizes : List Nat}
    {t degree : Nat} {p : BfvParameters}
    (h : BfvParameters.new oracle sizes t degree = .ok p) :
    ∃ (moduli : List Nat) (enc : List (Nat × Poly)) (maxSize : Nat)
      (dec : List (List (Nat × Nat × ℚ × ℚ))),
      genModuli oracle (2 * degree) [] sizes = .ok moduli ∧
      encTables t (buildContexts moduli degree) = .ok enc ∧
      sizes.max? = some maxSize ∧
      decTables t (maxSize / 2) (buildContexts moduli degree) = .ok dec ∧
      p = { ciphertext_moduli := moduli,
            ciphertext_moduli_sizes := sizes,
            ciphertext_poly_contexts := buildContexts moduli degree,
            plaintext_modulus := t,
            ql_modt := enc.map Prod.fst,
            neg_t_inv_modql := enc.map Prod.snd,
            t_qlhat_inv_modql_divql_modt :=
              dec.map fun r => r.map fun x => x.1,
            t_bqlhat_inv_modql_divql_modt :=
              dec.map fun r => r.map fun x => x.2.1,
            t_qlhat_inv_modql_divql_frac :=
              dec.map fun r => r.map fun x => x.2.2.1,
            t_bqlhat_inv_modql_divql_frac :=
              dec.map fun r => r.map fun x => x.2.2.2,
            max_bit_size_by2 := maxSize / 2 } := by
  unfold BfvParameters.new at h
  split at h
  · cases h
  · cases h
  · rename_i moduli hgen
    split at h
    · cases h
    · rename_i q hb
      have hqp : q = p := by cases h; rfl
      subst hqp
      simp only [buildFrom] at hb
      split at hb
      · cases hb
      · rename_i enc henc
        split at hb
        · cases hb
        · rename_i maxSize hmax
          split at hb
          · cases hb
          · rename_i dec hdec
            refine ⟨moduli, enc, maxSize, dec, hgen, henc, hmax, hdec, ?_⟩
            cases hb
            rfl

theorem gcd_sub_left {t Q : Nat} (h : t ≤ Q) :
    Nat.gcd (Q - t) Q = Nat.gcd t Q := by
  apply Nat.dvd_antisymm
  · apply Nat.dvd_gcd
    · have h1 : Nat.gcd (Q - t) Q ∣ Q - t := Nat.gcd_dvd_left _ _
      have h2 : Nat.gcd (Q - t) Q ∣ Q := Nat.gcd_dvd_right _ _
      have h3 := Nat.dvd_sub' h2 h1
      rwa [Nat.sub_sub_self h] at h3
    · exact Nat.gcd_dvd_right _ _
  · apply Nat.dvd_gcd
    · exact Nat.dvd_sub' (Nat.gcd_dvd_right _ _) (Nat.gcd_dvd_left _ _)
    · exact Nat.gcd_dvd_right _ _

theorem encTables_error_first {t : Nat} {cs : List PolyContext}
    {c0 : PolyContext} {e : Panic} (h0 : cs[0]? = some c0)
    (he : encTable t c0 = .error e) : encTables t cs = .error e := by
  cases cs with
  | nil => simp at h0
  | cons c rest =>
    simp only [List.getElem?_cons_zero, Option.some.injEq] at h0
    subst h0
    rw [encTables]
    simp [he]

theorem generate_prime_below : OracleBelowBound generate_prime := by
  intro s f ub p hp
  simp only [generate_prime] at hp
  have hmem := List.mem_of_find?_eq_some hp
  simp only [List.mem_map, List.mem_range] at hmem
  obtain ⟨i, hi, heq⟩ := hmem
  have hpow : 1 ≤ 2 ^ s := Nat.one_le_two_pow
  rcases Nat.le_total (2 ^ s) ub with hc | hc
  · rw [min_eq_left hc] at hi heq
    generalize hC : 2 ^ (s - 1) = C at hi
    generalize hB : 2 ^ s = B at hi heq hc hpow
    omega
  · rw [min_eq_right hc] at hi heq
    generalize hC : 2 ^ (s - 1) = C at hi
    generalize hB : 2 ^ s = B at hc hpow
    omega

/-- The result of the concrete construction with bit sizes `[4]`, plaintext
modulus 3 and degree 2 (one 4-bit prime, `13 ≡ 1 (mod 4)`); used as the
concrete instance in the witnesses below. -/
def params1 : BfvParameters :=
  { ciphertext_moduli := [13],
    ciphertext_moduli_sizes := [4],
    ciphertext_poly_contexts := [{ moduli := [13], degree := 2 }],
    plaintext_modulus := 3,
    ql_modt := [1],
    neg_t_inv_modql := [{ value := 4, rep := Representation.Evaluation }],
    t_qlhat_inv_modql_divql_modt := [[0]],
    t_bqlhat_inv_modql_divql_modt := [[0]],
    t_qlhat_inv_modql_divql_frac := [[mkRat 3 13]],
    t_bqlhat_inv_modql_divql_frac := [[mkRat 12 13]],
    max_bit_size_by2 := 2 }

/-- The result of the concrete construction with bit sizes `[4, 5]`,
plaintext modulus 7 and degree 2 (primes 13 and 29, two nested levels);
used as the concrete instance in the witnesses below. -/
def params2 : BfvParameters :=
  { ciphertext_moduli := [13, 29],
    ciphertext_moduli_sizes := [4, 5],
    ciphertext_poly_contexts :=
      [{ moduli := [13, 29], degree := 2 }, { moduli := [13], degree := 2 }],
    plaintext_modulus := 7,
    ql_modt := [6, 6],
    neg_t_inv_modql :=
      [{ value := 323, rep := Representation.Evaluation },
       { value := 11, rep := Representation.Evaluation }],
    t_qlhat_inv_modql_divql_modt := [[4, 2], [0]],
    t_bqlhat_inv_modql_divql_modt := [[5, 1], [2]],
    t_qlhat_inv_modql_divql_frac := [[mkRat 11 13, mkRat 5 29], [mkRat 7 13]],
    t_bqlhat_inv_modql_divql_frac := [[mkRat 5 13, mkRat 20 29], [mkRat 2 13]],
    max_bit_size_by2 := 2 }

/-- C1, counterexample: on spec §8's Scenario B (bit size 4, degree 1024, so
no 4-bit prime is `≡ 1 (mod 2048)`), the construction does not fail with an
`InsufficientPrimes` error surfaced to the caller — it aborts in the
`assert!(false)` panic (lib.rs line 59), the process-fatal abort; the code has
no error-return channel at all. -/
theorem c1_counterexample :
    BfvParameters.new generate_prime [4] 17 1024 = .panic .assertFalse := by
  decide

/-- C1, amended: when the oracle finds no prime for the first requested bit
size at the initial bound `2^size`, construction aborts via the
`assert!(false)` panic; no `InsufficientPrimes` error value exists in the
code, so nothing is surfaced to the caller except the panic. -/
theorem c1_insufficient_primes_panics
    (oracle : Nat → Nat → Nat → Option Nat) (size : Nat) (rest : List Nat)
    (t degree : Nat) (h : oracle size (2 * degree) (2 ^ size) = none) :
    BfvParameters.new oracle (size :: rest) t degree = .panic .assertFalse := by
  unfold BfvParameters.new
  rw [genModuli, findPrime, h]

/-- C1, witness: the amended theorem applied to the Scenario-B instance. -/
theorem c1_witness :
    BfvParameters.new generate_prime [4, 4] 17 1024 = .panic .assertFalse :=
  c1_insufficient_primes_panics generate_prime 4 [4] 17 1024 (by decide)

/-- C3, counterexample: the constructor validates nothing. With degree 3 (not
a power of two) it succeeds; with plaintext modulus 1 (≤ 1) it succeeds; and
with an empty bit-size list it panics at the `.max().unwrap()` of lib.rs line
105 — never with an `InvalidConfiguration` error, which does not exist in the
code. -/
theorem c3_counterexample :
    (BfvParameters.new generate_prime [4] 3 3).isOk = true ∧
    (BfvParameters.new generate_prime [4] 1 2).isOk = true ∧
    BfvParameters.new generate_prime [] 17 8 = .panic .unwrapNoneMax := by
  decide

/-- C3, amended: no configuration is validated before the prime search; in
particular an empty bit-size list is not rejected up front but causes the
`.max().unwrap()` panic after the (vacuous) search, for every oracle,
plaintext modulus and degree. -/
theorem c3_no_validation (oracle : Nat → Nat → Nat → Option Nat)
    (t degree : Nat) :
    BfvParameters.new oracle [] t degree = .panic .unwrapNoneMax := rfl

/-- C5: in every successfully constructed parameter set the accepted primes
are pairwise distinct — the builder pushes a prime only after the `contains`
check fails, otherwise it tightens the bound and retries. -/
theorem c5_moduli_nodup (oracle : Nat → Nat → Nat → Option Nat)
    (sizes : List Nat) (t degree : Nat) (p : BfvParameters)
    (h : BfvParameters.new oracle sizes t degree = .ok p) :
    p.ciphertext_moduli.Nodup := by
  obtain ⟨moduli, enc, maxSize, dec, hgen, -, -, -, hp⟩ := new_ok h
  subst hp
  exact genModuli_ok_nodup oracle (2 * degree) sizes [] moduli
    List.nodup_nil hgen

/-- C5, witness: the distinctness theorem applied to the concrete two-prime
construction. -/
theorem c5_witness : params2.ciphertext_moduli.Nodup :=
  c5_moduli_nodup generate_prime [4, 5] 7 2 params2 (by decide)

/-- C9: construction is a deterministic function of its inputs and the
oracle — two runs on identical bit sizes, plaintext modulus and degree give
identical parameter sets, all tables included. -/
theorem c9_deterministic (oracle : Nat → Nat → Nat → Option Nat)
    (sizes : List Nat) (t degree : Nat) (p1 p2 : BfvParameters)
    (h1 : BfvParameters.new oracle sizes t degree = .ok p1)
    (h2 : BfvParameters.new oracle sizes t degree = .ok p2) : p1 = p2 :=
  BuildResult.ok.inj (h1.symm.trans h2)

/-- C9, witness: two identical concrete runs produce the same parameters. -/
theorem c9_witness : params1 = params1 :=
  c9_deterministic generate_prime [4] 3 2 params1 params1 (by decide)
    (by decide)

/-- C10: for every oracle obeying the §6 contract consequence that a returned
prime is strictly below the exclusive upper bound, the duplicate-avoidance
loop terminates for every requested bit size from the builder's initial bound
`2^size` (each retry strictly shrinks the `u64` bound), and hence the whole
construction never exhausts its fuel. -/
theorem c10_loop_termination (oracle : Nat → Nat → Nat → Option Nat)
    (hor : OracleBelowBound oracle) (size nttF : Nat) (accepted : List Nat)
    (sizes : List Nat) (t degree : Nat) :
    findPrime oracle size nttF accepted (2 ^ size + 1) (2 ^ size) ≠
      .outOfFuel ∧
    BfvParameters.new oracle sizes t degree ≠ .outOfFuel := by
  constructor
  · exact findPrime_terminates oracle hor size nttF accepted _ _ (by omega)
  · have hgen := genModuli_terminates oracle hor (2 * degree) sizes []
    unfold BfvParameters.new
    split
    · rename_i heq
      exact absurd heq hgen
    · simp
    · split
      · simp
      · simp

/-- C10, witness: the spec-modelled oracle satisfies the bound contract, and
the concrete loop and construction terminate. -/
theorem c10_witness :
    findPrime generate_prime 4 4 [] (2 ^ 4 + 1) (2 ^ 4) ≠
      FindOutcome.outOfFuel ∧
    BfvParameters.new generate_prime [4] 3 2 ≠ BuildResult.outOfFuel :=
  c10_loop_termination generate_prime generate_prime_below 4 4 [] [4] 3 2

/-- C4: a successful construction with `L` accepted primes has exactly `L`
level contexts; level `i`'s modulus list equals the first `L − i` accepted
primes (`moduli.take (L - i)`, so level 0 holds all primes and the last level
only the first prime), and consecutive levels strictly shrink, each a prefix
of the previous — a strictly decreasing nested chain. -/
theorem c4_levels (oracle : Nat → Nat → Nat → Option Nat) (sizes : List Nat)
    (t degree : Nat) (p : BfvParameters)
    (h : BfvParameters.new oracle sizes t degree = .ok p) :
    p.ciphertext_poly_contexts.length = p.ciphertext_moduli.length ∧
    (∀ (i : Nat) (c : PolyContext), p.ciphertext_poly_contexts[i]? = some c →
      c.moduli = p.ciphertext_moduli.take (p.ciphertext_moduli.length - i) ∧
      c.moduli.length = p.ciphertext_moduli.length - i) ∧
    (∀ (i : Nat) (c c' : PolyContext),
      p.ciphertext_poly_contexts[i]? = some c →
      p.ciphertext_poly_contexts[i + 1]? = some c' →
      c'.moduli.length < c.moduli.length ∧ c'.moduli.IsPrefix c.moduli) := by
  obtain ⟨moduli, enc, maxSize, dec, hgen, henc, hmax, hdec, hp⟩ := new_ok h
  subst hp
  dsimp only
  have h2 : ∀ (i : Nat) (c : PolyContext),
      (buildContexts moduli degree)[i]? = some c →
      c.moduli = moduli.take (moduli.length - i) ∧
      c.moduli.length = moduli.length - i ∧ i < moduli.length := by
    intro i c hci
    have hi : i < moduli.length := by
      by_contra hge
      push_neg at hge
      rw [← buildContexts_length moduli degree] at hge
      rw [List.getElem?_eq_none hge] at hci
      cases hci
    rw [buildContexts_getElem? moduli degree i hi] at hci
    cases hci
    refine ⟨rfl, ?_, hi⟩
    rw [List.length_take, min_eq_left (Nat.sub_le _ _)]
  refine ⟨buildContexts_length moduli degree,
    fun i c hci => ⟨(h2 i c hci).1, (h2 i c hci).2.1⟩, ?_⟩
  intro i c c' hc hc'
  obtain ⟨hceq, hclen, hilt⟩ := h2 i c hc
  obtain ⟨hceq', hclen', hilt'⟩ := h2 (i + 1) c' hc'
  refine ⟨by omega, ?_⟩
  rw [hceq, hceq']
  have hstep : moduli.take (moduli.length - (i + 1)) =
      (moduli.take (moduli.length - i)).take (moduli.length - (i + 1)) := by
    rw [List.take_take, min_eq_left (by omega)]
  rw [hstep]
  exact List.take_prefix _ _

/-- C4, witness: the level-structure theorem applied to the concrete
two-level construction. -/
theorem c4_witness :
    params2.ciphertext_poly_contexts.length =
      params2.ciphertext_moduli.length :=
  (c4_levels generate_prime [4, 5] 7 2 params2 (by decide)).1

/-- C6: in every successful construction, each level's stored `ql_modt` equals
the product of that level's moduli reduced modulo the plaintext modulus, an
integer in `[0, t)`. -/
theorem c6_ql_modt (oracle : Nat → Nat → Nat → Option Nat)
    (sizes : List Nat) (t degree : Nat) (p : BfvParameters)
    (h : BfvParameters.new oracle sizes t degree = .ok p) :
    p.ql_modt.length = p.ciphertext_poly_contexts.length ∧
    ∀ (i : Nat) (c : PolyContext), p.ciphertext_poly_contexts[i]? = some c →
      p.ql_modt[i]? = some (c.moduli.prod % p.plaintext_modulus) ∧
      c.moduli.prod % p.plaintext_modulus < p.plaintext_modulus := by
  obtain ⟨moduli, enc, maxSize, dec, hgen, henc, hmax, hdec, hp⟩ := new_ok h
  subst hp
  dsimp only
  obtain ⟨hlen, hget⟩ := encTables_ok _ _ henc
  refine ⟨by simp [hlen, buildContexts_length], ?_⟩
  intro i c hci
  obtain ⟨⟨m, w⟩, hx, hxi⟩ := hget i c hci
  obtain ⟨ht0, htle, hm, -⟩ := encTable_ok hx
  refine ⟨?_, Nat.mod_lt _ (by omega)⟩
  rw [List.getElem?_map, hxi]
  rw [hm]
  rfl

/-- C6, witness: the encryption-constant theorem applied to the concrete
one-level construction. -/
theorem c6_witness :
    params1.ql_modt[0]? =
      some (([13] : List Nat).prod % params1.plaintext_modulus) :=
  ((c6_ql_modt generate_prime [4] 3 2 params1 (by decide)).2 0
    { moduli := [13], degree := 2 } (by decide)).1

/-- C7: in every successful construction, each level's stored `neg_t_inv_modql`
is a constant ring element in transform-domain representation whose integer
value, multiplied by `(Q − t) mod Q`, gives `1 mod Q` — i.e. it holds the
modular inverse of `(Q − t) mod Q` with respect to the level modulus `Q`. -/
theorem c7_neg_t_inv (oracle : Nat → Nat → Nat → Option Nat)
    (sizes : List Nat) (t degree : Nat) (p : BfvParameters)
    (h : BfvParameters.new oracle sizes t degree = .ok p) :
    p.neg_t_inv_modql.length = p.ciphertext_poly_contexts.length ∧
    ∀ (i : Nat) (c : PolyContext), p.ciphertext_poly_contexts[i]? = some c →
      ∃ w : Poly, p.neg_t_inv_modql[i]? = some w ∧
        w.rep = Representation.Evaluation ∧
        w.value * ((c.modulus - p.plaintext_modulus) % c.modulus) % c.modulus
          = 1 % c.modulus := by
  obtain ⟨moduli, enc, maxSize, dec, hgen, henc, hmax, hdec, hp⟩ := new_ok h
  subst hp
  dsimp only
  obtain ⟨hlen, hget⟩ := encTables_ok _ _ henc
  refine ⟨by simp [hlen, buildContexts_length], ?_⟩
  intro i c hci
  obtain ⟨⟨m, w⟩, hx, hxi⟩ := hget i c hci
  obtain ⟨ht0, htle, hm, inv, hinv, hw⟩ := encTable_ok hx
  obtain ⟨hmul, hlt⟩ := modInverse_mul_mod hinv
  refine ⟨w, ?_, ?_, ?_⟩
  · rw [List.getElem?_map, hxi]
    rfl
  · rw [hw]
  · subst hw
    dsimp only
    have hsub : (c.modulus - t) % c.modulus = c.modulus - t :=
      Nat.mod_eq_of_lt (by omega)
    rw [hsub, Nat.mod_eq_of_lt hlt, Nat.mul_comm]
    exact hmul

/-- C7, witness: the inverse-constant theorem applied to the concrete
one-level construction. -/
theorem c7_witness :
    ∃ w : Poly, params1.neg_t_inv_modql[0]? = some w ∧
      w.rep = Representation.Evaluation ∧
      w.value * ((PolyContext.modulus { moduli := [13], degree := 2 } -
            params1.plaintext_modulus) %
          PolyContext.modulus { moduli := [13], degree := 2 }) %
        PolyContext.modulus { moduli := [13], degree := 2 } =
        1 % PolyContext.modulus { moduli := [13], degree := 2 } :=
  (c7_neg_t_inv generate_prime [4] 3 2 params1 (by decide)).2 0
    { moduli := [13], degree := 2 } (by decide)

/-- C2, counterexample: with `t = 13` equal to the single generated modulus 13
(so `gcd(t, Q) = 13 ≠ 1`), construction does not fail with a `NonInvertible`
error — it aborts in the `.unwrap()` panic on the `None` returned by the
encryption-side `mod_inverse` (lib.rs line 89), an unchecked runtime failure;
no `NonInvertible` error value exists in the code. -/
theorem c2_counterexample :
    BfvParameters.new generate_prime [4] 13 2 =
      .panic .unwrapNoneEncInverse := by
  decide

/-- C2, amended: whenever the plaintext modulus shares a factor with the
level-0 modulus product `Q` (with `1 ≤ t ≤ Q`), the required inverse does not
exist and construction aborts via the `.unwrap()` panic on the
encryption-side `mod_inverse` — an unchecked runtime failure, not a reported
`NonInvertible` error. -/
theorem c2_noninvertible_panics (oracle : Nat → Nat → Nat → Option Nat)
    (sizes : List Nat) (t degree m : Nat) (ms : List Nat)
    (hgen : genModuli oracle (2 * degree) [] sizes = .ok (m :: ms))
    (ht : 1 ≤ t) (htq : t ≤ (m :: ms).prod)
    (hg : Nat.gcd t ((m :: ms).prod) ≠ 1) :
    BfvParameters.new oracle sizes t degree =
      .panic .unwrapNoneEncInverse := by
  have hQ2 : 2 ≤ (m :: ms).prod := by
    rcases Nat.lt_or_ge ((m :: ms).prod) 2 with hlt | hge
    · have h1 : (m :: ms).prod = 1 := by omega
      rw [h1, Nat.gcd_one_right] at hg
      exact absurd rfl hg
    · exact hge
  have hgcd : Nat.gcd ((m :: ms).prod - t) ((m :: ms).prod) ≠ 1 := by
    rw [gcd_sub_left htq]
    exact hg
  have hnone := modInverse_eq_none hQ2 hgcd
  have hc0 : (buildContexts (m :: ms) degree)[0]? =
      some { moduli := m :: ms, degree := degree } := by
    rw [buildContexts_getElem? (m :: ms) degree 0 (by simp)]
    simp
  have henc0 : encTable t { moduli := m :: ms, degree := degree } =
      .error .unwrapNoneEncInverse := by
    simp only [encTable, PolyContext.modulus]
    rw [if_neg (by omega), if_neg (by omega), hnone]
  have henc := encTables_error_first hc0 henc0
  unfold BfvParameters.new
  rw [hgen]
  simp only [buildFrom, henc]

/-- C2, witness: the amended theorem applied at `t = 13` with generated
modulus 13 and degree 3. -/
theorem c2_witness :
    BfvParameters.new generate_prime [4] 13 3 =
      .panic .unwrapNoneEncInverse :=
  c2_noninvertible_panics generate_prime [4] 13 3 13 [] (by decide)
    (by decide) (by decide) (by decide)

/-- C8: in every successful construction the global shift is
`b = max(bit sizes) / 2`, and for every level context `c`, level modulus
product `Q = c.modulus` and modulus `qi = c.moduli[j]`: `qi` divides `Q`
(`qhat = Q / qi` is exact), `v = qhat⁻¹ mod qi` exists, and the four stored
decryption tables hold `floor(t·v/qi) mod t`,
`floor(((v·2^b mod qi)·t)/qi) mod t`, and the exact fractions
`((t·v) mod qi)/qi` and `(((v·2^b mod qi)·t) mod qi)/qi`, both in `[0, 1)`. -/
theorem c8_dec_tables (oracle : Nat → Nat → Nat → Option Nat)
    (sizes : List Nat) (t degree : Nat) (p : BfvParameters)
    (h : BfvParameters.new oracle sizes t degree = .ok p) :
    (∃ ms, sizes.max? = some ms ∧ p.max_bit_size_by2 = ms / 2) ∧
    ∀ (i : Nat) (c : PolyContext) (j qi : Nat),
      p.ciphertext_poly_contexts[i]? = some c → c.moduli[j]? = some qi →
      qi ∣ c.modulus ∧
      ∃ v, modInverse (c.modulus / qi) qi = some v ∧ v < qi ∧
        c.modulus / qi * v % qi = 1 % qi ∧
        (p.t_qlhat_inv_modql_divql_modt[i]?.bind fun r => r[j]?) =
          some (t * v / qi % t) ∧
        (p.t_bqlhat_inv_modql_divql_modt[i]?.bind fun r => r[j]?) =
          some (v * 2 ^ p.max_bit_size_by2 % qi * t / qi % t) ∧
        (p.t_qlhat_inv_modql_divql_frac[i]?.bind fun r => r[j]?) =
          some (((t * v % qi : Nat) : ℚ) / ((qi : Nat) : ℚ)) ∧
        (p.t_bqlhat_inv_modql_divql_frac[i]?.bind fun r => r[j]?) =
          some (((v * 2 ^ p.max_bit_size_by2 % qi * t % qi : Nat) : ℚ) /
            ((qi : Nat) : ℚ)) ∧
        (0 : ℚ) ≤ ((t * v % qi : Nat) : ℚ) / ((qi : Nat) : ℚ) ∧
        ((t * v % qi : Nat) : ℚ) / ((qi : Nat) : ℚ) < 1 ∧
        (0 : ℚ) ≤ ((v * 2 ^ p.max_bit_size_by2 % qi * t % qi : Nat) : ℚ) /
          ((qi : Nat) : ℚ) ∧
        ((v * 2 ^ p.max_bit_size_by2 % qi * t % qi : Nat) : ℚ) /
          ((qi : Nat) : ℚ) < 1 := by
  obtain ⟨moduli, enc, maxSize, dec, hgen, henc, hmax, hdec, hp⟩ := new_ok h
  subst hp
  dsimp only
  obtain ⟨hdlen, hdget⟩ := decTables_ok _ _ hdec
  refine ⟨⟨maxSize, hmax, rfl⟩, ?_⟩
  intro i c j qi hci hqj
  have hqmem : qi ∈ c.moduli := List.getElem?_mem hqj
  have hdvd : qi ∣ c.modulus := List.dvd_prod hqmem
  obtain ⟨row, hrow, hrowi⟩ := hdget i c hci
  obtain ⟨hrlen, hrget⟩ := decRow_ok _ _ hrow
  obtain ⟨⟨r, br, fr, bfr⟩, hx, hxj⟩ := hrget j qi hqj
  obtain ⟨hqi0, v, hv, hr, hbr, hf, hbf⟩ := decEntry_ok hx
  obtain ⟨hvmul, hvlt⟩ := modInverse_mul_mod hv
  have hqipos : 0 < qi := Nat.pos_of_ne_zero hqi0
  have hqpos : (0 : ℚ) < ((qi : Nat) : ℚ) := by exact_mod_cast hqipos
  refine ⟨hdvd, v, hv, hvlt, hvmul, ?_, ?_, ?_, ?_, ?_, ?_, ?_, ?_⟩
  · rw [Nat.mul_comm t v]
    simp [List.getElem?_map, hrowi, hxj, hr]
  · simp [List.getElem?_map, hrowi, hxj, hbr]
  · rw [Nat.mul_comm t v]
    rw [List.getElem?_map, hrowi]
    dsimp only [Option.map, Option.bind]
    rw [List.getElem?_map, hxj]
    dsimp only [Option.map]
    rw [hf, mkRat_natCast_div]
  · rw [List.getElem?_map, hrowi]
    dsimp only [Option.map, Option.bind]
    rw [List.getElem?_map, hxj]
    dsimp only [Option.map]
    rw [hbf, mkRat_natCast_div]
  · exact div_nonneg (by positivity) (le_of_lt hqpos)
  · rw [div_lt_one hqpos]
    exact_mod_cast Nat.mod_lt _ hqipos
  · exact div_nonneg (by positivity) (le_of_lt hqpos)
  · rw [div_lt_one hqpos]
    exact_mod_cast Nat.mod_lt _ hqipos

/-- C8, witness: the decryption-table theorem applied to the concrete
one-level construction at level 0 and modulus 13. -/
theorem c8_witness :
    (13 : Nat) ∣ PolyContext.modulus { moduli := [13], degree := 2 } ∧
    ∃ v, modInverse
        (PolyContext.modulus { moduli := [13], degree := 2 } / 13) 13 =
        some v ∧ v < 13 ∧
      PolyContext.modulus { moduli := [13], degree := 2 } / 13 * v % 13 =
        1 % 13 ∧
      (params1.t_qlhat_inv_modql_divql_modt[0]?.bind fun r => r[0]?) =
        some (3 * v / 13 % 3) ∧
      (params1.t_bqlhat_inv_modql_divql_modt[0]?.bind fun r => r[0]?) =
        some (v * 2 ^ params1.max_bit_size_by2 % 13 * 3 / 13 % 3) ∧
      (params1.t_qlhat_inv_modql_divql_frac[0]?.bind fun r => r[0]?) =
        some (((3 * v % 13 : Nat) : ℚ) / ((13 : Nat) : ℚ)) ∧
      (params1.t_bqlhat_inv_modql_divql_frac[0]?.bind fun r => r[0]?) =
        some (((v * 2 ^ params1.max_bit_size_by2 % 13 * 3 % 13 : Nat) : ℚ) /
          ((13 : Nat) : ℚ)) ∧
      (0 : ℚ) ≤ ((3 * v % 13 : Nat) : ℚ) / ((13 : Nat) : ℚ) ∧
      ((3 * v % 13 : Nat) : ℚ) / ((13 : Nat) : ℚ) < 1 ∧
      (0 : ℚ) ≤
        ((v * 2 ^ params1.max_bit_size_by2 % 13 * 3 % 13 : Nat) : ℚ) /
          ((13 : Nat) : ℚ) ∧
      ((v * 2 ^ params1.max_bit_size_by2 % 13 * 3 % 13 : Nat) : ℚ) /
        ((13 : Nat) : ℚ) < 1 :=
  (c8_dec_tables generate_prime [4] 3 2 params1 (by decide)).2 0
    { moduli := [13], degree := 2 } 0 13 (by decide) (by decide)

end Bfv
